import Mathlib

/-!
Verification of the konan `rongta` text-layout and pagination core.

The definitions below are a shallow embedding of `src/crates/rongta/rongta.rs`,
`src/crates/rongta/elements.rs` and `src/crates/rongta/cp437.rs`:

* `TextSize`, `TextDecoration`, `Justify`, `FormatState`, `StyledChar`, `Line`
  mirror the value types of `elements.rs` / `rongta.rs`;
* `Line.visual_width`, `Line.find_wrap_point`, `Line.add_char` mirror the
  wrapping algorithm of `rongta.rs` (the Rust `&mut self` methods become
  functions returning the mutated value, `split_off` becomes `take`/`drop`);
* `normalize_char`, `is_cp437_char`, `cp437_char_only` mirror `cp437.rs`;
* `PrintBuilder` with `add_char_content`, `add_content`, `new_line` mirrors the
  builder of `rongta.rs` (Rust's `Vec` push/pop at the back becomes list
  append/`getLast?`/`dropLast`);
* the printer command vocabulary of `AnyPrinter` is reified as the inductive
  `Command`, and `PrintBuilder.print_to` produces the ordered list of commands
  the Rust code would issue, or the error raised by CP437 validation.
-/

namespace Konan

/-- `pub const CPL: u8 = 48;` — characters per line. -/
def CPL : Nat := 48

/-- `TextSize` from `elements.rs` (default `Medium`). -/
inductive TextSize
  | Medium
  | Large
  | ExtraLarge
deriving DecidableEq, Repr, Inhabited

/-- `TextSize::char_width`: Medium = 1 column, Large = 2, ExtraLarge = 3. -/
def TextSize.char_width : TextSize → Nat
  | .Medium => 1
  | .Large => 2
  | .ExtraLarge => 3

/-- `TextDecoration` from `elements.rs` (all flags default `false`). -/
structure TextDecoration where
  bold : Bool
  underline : Bool
  italic : Bool
deriving DecidableEq, Repr, Inhabited

/-- `Justify` from `elements.rs` (default `Left`). -/
inductive Justify
  | Left
  | Center
  | Right
deriving DecidableEq, Repr, Inhabited

/-- `FormatState` from `elements.rs`. -/
structure FormatState where
  text_size : TextSize
  text_decoration : TextDecoration
deriving DecidableEq, Repr, Inhabited

/-- `StyledChar` from `elements.rs`. -/
structure StyledChar where
  ch : Char
  state : FormatState
deriving DecidableEq, Repr, Inhabited

/-- Rust `char::is_ascii`: code point at most `0x7F`. -/
def rust_is_ascii (c : Char) : Bool :=
  c.toNat ≤ 0x7F

/-- The Unicode `White_Space` code points, as decided by Rust `char::is_whitespace`. -/
def rust_is_whitespace (c : Char) : Bool :=
  ([0x09, 0x0A, 0x0B, 0x0C, 0x0D, 0x20, 0x85, 0xA0, 0x1680,
    0x2000, 0x2001, 0x2002, 0x2003, 0x2004, 0x2005, 0x2006, 0x2007,
    0x2008, 0x2009, 0x200A, 0x2028, 0x2029, 0x202F, 0x205F, 0x3000] : List Nat).contains c.toNat

/-- `CP437_CHARS` from `cp437.rs`: the 128 extended (non-ASCII) CP437 glyphs. -/
def CP437_CHARS : List Char := [
  'Ç', 'ü', 'é', 'â', 'ä', 'à', 'å', 'ç', 'ê', 'ë', 'è', 'ï', 'î', 'ì', 'Ä', 'Å', 'É', 'æ', 'Æ',
  'ô', 'ö', 'ò', 'û', 'ù', 'ÿ', 'Ö', 'Ü', '¢', '£', '¥', '₧', 'ƒ', 'á', 'í', 'ó', 'ú', 'ñ', 'Ñ',
  'ª', 'º', '¿', '⌐', '¬', '½', '¼', '¡', '«', '»', '░', '▒', '▓', '│', '┤', '╡', '╢', '╖', '╕',
  '╣', '║', '╗', '╝', '╜', '╛', '┐', '└', '┴', '┬', '├', '─', '┼', '╞', '╟', '╚', '╔', '╩', '╦',
  '╠', '═', '╬', '╧', '╨', '╤', '╥', '╙', '╘', '╒', '╓', '╫', '╪', '┘', '┌', '█', '▄', '▌', '▐',
  '▀', 'α', 'ß', 'Γ', 'π', 'Σ', 'σ', 'µ', 'τ', 'Φ', 'Θ', 'Ω', 'δ', '∞', 'φ', 'ε', '∩', '≡', '±',
  '≥', '≤', '⌠', '⌡', '÷', '≈', '°', '∙', '·', '√', 'ⁿ', '²', '■', ' ']

/-- `EXTENDED_CP437` from `cp437.rs`: the non-ASCII entries of `CP437_CHARS`
(the Rust `HashSet` becomes a list with decidable membership). -/
def EXTENDED_CP437 : List Char :=
  CP437_CHARS.filter (fun c => ¬ rust_is_ascii c)

/-- `normalize_char` from `cp437.rs`: curly single quotes and the modifier
apostrophe map to `0x27`, curly double quotes to `0x22`, en-dash and em-dash
to `0x2D`; everything else yields `none`. -/
def normalize_char (ch : Char) : Option Char :=
  if ch = Char.ofNat 0x2018 ∨ ch = Char.ofNat 0x2019 ∨ ch = Char.ofNat 0x02BC then
    some (Char.ofNat 0x27)
  else if ch = Char.ofNat 0x201C ∨ ch = Char.ofNat 0x201D then
    some (Char.ofNat 0x22)
  else if ch = Char.ofNat 0x2013 ∨ ch = Char.ofNat 0x2014 then
    some (Char.ofNat 0x2D)
  else
    none

/-- The normalization actually applied by `StyledChar::to_print_command`:
`normalize_char(self.ch).unwrap_or(self.ch)`. -/
def normalize (ch : Char) : Char :=
  (normalize_char ch).getD ch

/-- `is_cp437_char` from `cp437.rs`: fast path for ASCII, set lookup otherwise. -/
def is_cp437_char (ch : Char) : Bool :=
  if rust_is_ascii ch then true
  else EXTENDED_CP437.contains ch

/-- The error message raised by `cp437_char_only`. -/
def cp437ErrorMsg : String :=
  "Non-CP437 character"

/-- `cp437_char_only` from `cp437.rs`. -/
def cp437_char_only (ch : Char) : Except String Char :=
  if is_cp437_char ch then Except.ok ch
  else Except.error cp437ErrorMsg

/-- Visual width of a list of styled characters (`Line::visual_width`'s sum). -/
def widthOf (cs : List StyledChar) : Nat :=
  (cs.map (fun sc => sc.state.text_size.char_width)).sum

/-- `Line` from `rongta.rs`. -/
structure Line where
  chars : List StyledChar
  justify_content : Justify
deriving DecidableEq, Repr, Inhabited

/-- `Line::visual_width`. -/
def Line.visual_width (l : Line) : Nat :=
  widthOf l.chars

/-- The scanning loop inside `Line::find_wrap_point`: `i` is the index of the
head of `cs` in the whole character vector, `width` the accumulated visual
width of the characters before it, `last` the last recorded whitespace index.
Whitespace is recorded before this character's width is added; the scan stops
once the accumulated width exceeds `CPL`. -/
def findWP : List StyledChar → Nat → Nat → Option Nat → Option Nat
  | [], _, _, last => last
  | sc :: rest, i, width, last =>
    let last' := if rust_is_whitespace sc.ch = true ∧ width ≤ CPL then some i else last
    let width' := width + sc.state.text_size.char_width
    if CPL < width' then last' else findWP rest (i + 1) width' last'

/-- `Line::find_wrap_point`. -/
def Line.find_wrap_point (l : Line) : Option Nat :=
  if l.visual_width ≤ CPL then none
  else findWP l.chars 0 0 none

/-- `Line::add_char`: push the character; if the line still fits, no split.
Otherwise soft-wrap at the wrap point (dropping the whitespace there) or
hard-wrap the just-appended character. Returns the mutated line and the
optional remainder line (`None` when the remainder would be empty). -/
def Line.add_char (l : Line) (sch : StyledChar) : Line × Option Line :=
  let chars := l.chars ++ [sch]
  if widthOf chars ≤ CPL then
    ({ chars := chars, justify_content := l.justify_content }, none)
  else
    match Line.find_wrap_point { chars := chars, justify_content := l.justify_content } with
    | some wrap_point =>
        let kept := chars.take wrap_point
        let rem0 := chars.drop wrap_point
        let remainder := if rem0.isEmpty then rem0 else rem0.tail
        ({ chars := kept, justify_content := l.justify_content },
         if remainder.isEmpty then none
         else some { chars := remainder, justify_content := l.justify_content })
    | none =>
        let kept := chars.take (chars.length - 1)
        let remainder := chars.drop (chars.length - 1)
        ({ chars := kept, justify_content := l.justify_content },
         if remainder.isEmpty then none
         else some { chars := remainder, justify_content := l.justify_content })

/-- `PrintBuilder` from `rongta.rs`. -/
structure PrintBuilder where
  lines : List Line
  cut : Bool
  current_text_size : TextSize
  current_text_decoration : TextDecoration
deriving DecidableEq, Repr, Inhabited

/-- `PrintBuilder::new`. -/
def PrintBuilder.new (cut : Bool) : PrintBuilder :=
  { lines := [], cut := cut,
    current_text_size := TextSize.Medium,
    current_text_decoration := { bold := false, underline := false, italic := false } }

/-- `PrintBuilder::current_line_justify_content`: justification of the last
line, or the default (`Left`) when there are no lines. -/
def PrintBuilder.current_line_justify_content (b : PrintBuilder) : Justify :=
  match b.lines.getLast? with
  | none => Justify.Left
  | some l => l.justify_content

/-- `PrintBuilder::add_char_content`: pop the last line (or start a fresh one),
feed the character through `Line::add_char`, push the mutated line and the
remainder line, if any. Always returns `Ok` in the source. -/
def PrintBuilder.add_char_content (b : PrintBuilder) (content : StyledChar) :
    Except String PrintBuilder :=
  let current_line := match b.lines.getLast? with
    | some l => l
    | none => { chars := [], justify_content := Justify.Left }
  let rest := b.lines.dropLast
  let r := current_line.add_char content
  let lines' := match r.2 with
    | some new_line => rest ++ [r.1, new_line]
    | none => rest ++ [r.1]
  Except.ok { b with lines := lines' }

/-- The per-character loop of `PrintBuilder::add_content`: completed lines are
pushed (appended to `acc`), the remainder becomes the active line. -/
def addContentLoop (st : FormatState) :
    List Char → List Line → Line → List Line × Line
  | [], acc, cur => (acc, cur)
  | ch :: rest, acc, cur =>
    let r := cur.add_char { ch := ch, state := st }
    match r.2 with
    | some new_line => addContentLoop st rest (acc ++ [r.1]) new_line
    | none => addContentLoop st rest acc r.1

/-- `PrintBuilder::add_content`: stamp every character of the text with the
builder's current style and feed it into the last line, wrapping as needed.
Always returns `Ok` in the source. -/
def PrintBuilder.add_content (b : PrintBuilder) (content : List Char) :
    Except String PrintBuilder :=
  let current_line := match b.lines.getLast? with
    | some l => l
    | none => { chars := [], justify_content := Justify.Left }
  let rest := b.lines.dropLast
  let st : FormatState :=
    { text_size := b.current_text_size, text_decoration := b.current_text_decoration }
  let r := addContentLoop st content rest current_line
  Except.ok { b with lines := r.1 ++ [r.2] }

/-- `PrintBuilder::new_line`: push an empty line inheriting the current
justification. -/
def PrintBuilder.new_line (b : PrintBuilder) : PrintBuilder :=
  { b with lines :=
      b.lines ++ [{ chars := [], justify_content := b.current_line_justify_content }] }

/-- The command vocabulary of `AnyPrinter` (justify, size, bold, underline,
write, feed, cut, plain print); `underline b` stands for
`UnderlineMode::Single` when `b` is `true` and `UnderlineMode::None` otherwise. -/
inductive Command
  | justify (j : Justify)
  | resetSize
  | size (w h : Nat)
  | bold (b : Bool)
  | underline (single : Bool)
  | write (c : Char)
  | feed
  | printCut
  | print
deriving DecidableEq, Repr

/-- `impl ToPrintCommand for TextSize`. -/
def TextSize.to_print_command : TextSize → List Command
  | .Medium => [Command.resetSize]
  | .Large => [Command.size 2 2]
  | .ExtraLarge => [Command.size 3 3]

/-- `impl ToPrintCommand for TextDecoration`: bold, then underline, then
italic rendered as a second underline command. -/
def TextDecoration.to_print_command (d : TextDecoration) : List Command :=
  [Command.bold d.bold, Command.underline d.underline, Command.underline d.italic]

/-- `impl ToPrintCommand for Justify`. -/
def Justify.to_print_command (j : Justify) : List Command :=
  [Command.justify j]

/-- `impl ToPrintCommand for StyledChar`: normalize, validate against CP437,
then emit size, decoration and write commands. -/
def StyledChar.to_print_command (sc : StyledChar) : Except String (List Command) :=
  let normalized_ch := (normalize_char sc.ch).getD sc.ch
  match cp437_char_only normalized_ch with
  | Except.error e => Except.error e
  | Except.ok ascii_content =>
      Except.ok (sc.state.text_size.to_print_command
        ++ sc.state.text_decoration.to_print_command
        ++ [Command.write ascii_content])

/-- Commands for the styled characters of one line, in order; the first
invalid character's error aborts (the `?` operator of the source). -/
def lineCharCommands : List StyledChar → Except String (List Command)
  | [] => Except.ok []
  | sc :: rest =>
    match sc.to_print_command with
    | Except.error e => Except.error e
    | Except.ok c =>
      match lineCharCommands rest with
      | Except.error e => Except.error e
      | Except.ok cs => Except.ok (c ++ cs)

/-- The commands `print_to` issues for one line before its feed: the justify
command followed by every styled character's commands. -/
def Line.emit (l : Line) : Except String (List Command) :=
  match lineCharCommands l.chars with
  | Except.error e => Except.error e
  | Except.ok cs => Except.ok (l.justify_content.to_print_command ++ cs)

/-- The paginated branch of `PrintBuilder::print_to`: emit each line followed
by a feed, cutting and resetting the counter whenever it reaches
`rows_per_page`; afterwards pad a partial trailing page with blank feeds and
cut. -/
def emitPaginated (n : Nat) : List Line → Nat → Except String (List Command)
  | [], line_count =>
      if 0 < line_count then
        Except.ok (List.replicate (n - line_count) Command.feed ++ [Command.printCut])
      else
        Except.ok []
  | l :: rest, line_count =>
      match l.emit with
      | Except.error e => Except.error e
      | Except.ok block =>
        if n ≤ line_count + 1 then
          match emitPaginated n rest 0 with
          | Except.error e => Except.error e
          | Except.ok restCmds =>
              Except.ok (block ++ [Command.feed, Command.printCut] ++ restCmds)
        else
          match emitPaginated n rest (line_count + 1) with
          | Except.error e => Except.error e
          | Except.ok restCmds =>
              Except.ok (block ++ [Command.feed] ++ restCmds)

/-- The unpaginated branch of `PrintBuilder::print_to`: every line followed by
a feed. -/
def emitUnpaginated : List Line → Except String (List Command)
  | [] => Except.ok []
  | l :: rest =>
      match l.emit with
      | Except.error e => Except.error e
      | Except.ok block =>
        match emitUnpaginated rest with
        | Except.error e => Except.error e
        | Except.ok restCmds => Except.ok (block ++ [Command.feed] ++ restCmds)

/-- `PrintBuilder::print_to`: with `rows = some n` paginate, otherwise emit all
lines and finish with a cut or a plain print depending on the builder's flag. -/
def PrintBuilder.print_to (b : PrintBuilder) (rows : Option Nat) :
    Except String (List Command) :=
  match rows with
  | some rows_per_page => emitPaginated rows_per_page b.lines 0
  | none =>
      match emitUnpaginated b.lines with
      | Except.error e => Except.error e
      | Except.ok cmds =>
          Except.ok (cmds ++ [if b.cut then Command.printCut else Command.print])

/-- Per-line command blocks for a list of lines (first error aborts). -/
def lineEmits : List Line → Except String (List (List Command))
  | [] => Except.ok []
  | l :: rest =>
    match l.emit with
    | Except.error e => Except.error e
    | Except.ok b =>
      match lineEmits rest with
      | Except.error e => Except.error e
      | Except.ok bs => Except.ok (b :: bs)

/-- Count occurrences of one command in a command list. -/
def countCmd (c : Command) : List Command → Nat
  | [] => 0
  | d :: rest => (if d = c then 1 else 0) + countCmd c rest

/-- Characters of an optional line (`none` has no characters). -/
def optLineChars : Option Line → List StyledChar
  | none => []
  | some l => l.chars

/-- Whether an `Except` value is a success (Rust `Result::is_ok`). -/
def isOkE {α : Type} : Except String α → Bool
  | Except.ok _ => true
  | Except.error _ => false

instance instDecidableEqExcept {ε α : Type} [DecidableEq ε] [DecidableEq α] :
    DecidableEq (Except ε α)
  | Except.error a, Except.error b =>
    if h : a = b then Decidable.isTrue (congrArg Except.error h)
    else Decidable.isFalse (fun hh => h (Except.error.inj hh))
  | Except.error _, Except.ok _ => Decidable.isFalse (fun hh => Except.noConfusion hh)
  | Except.ok _, Except.error _ => Decidable.isFalse (fun hh => Except.noConfusion hh)
  | Except.ok a, Except.ok b =>
    if h : a = b then Decidable.isTrue (congrArg Except.ok h)
    else Decidable.isFalse (fun hh => h (Except.ok.inj hh))

/-- The indices the wrap-point scan may report: a whitespace character whose
preceding prefix fits within `CPL`. -/
def wsOK (full : List StyledChar) (j : Nat) : Prop :=
  j < full.length ∧ widthOf (full.take j) ≤ CPL ∧
    rust_is_whitespace ((full.getD j default).ch) = true

/-- The spec's "ASCII printable/whitespace range" predicate from §4.1, stated
from the spec's words to compare against the code's `is_cp437_char`. -/
def spec_ascii_printable_or_whitespace (c : Char) : Bool :=
  (decide (0x20 ≤ c.toNat) && decide (c.toNat ≤ 0x7E)) || rust_is_whitespace c

/-- The code points `normalize_char` maps to something else. -/
def mappedCodepoints : List Nat :=
  [0x2018, 0x2019, 0x02BC, 0x201C, 0x201D, 0x2013, 0x2014]

/-- A styled character with the given size and no decoration. -/
def mkStyled (c : Char) (s : TextSize) : StyledChar :=
  { ch := c,
    state := { text_size := s,
               text_decoration := { bold := false, underline := false, italic := false } } }

/-- A width-48 line starting with a whitespace character and otherwise filled
with wide characters: the soft wrap point is index 0, so the remainder after
wrapping keeps almost the whole line. -/
def wideLine : Line :=
  { chars := [mkStyled ' ' TextSize.Medium, mkStyled 'a' TextSize.Medium,
              mkStyled 'a' TextSize.Medium]
        ++ List.replicate 15 (mkStyled 'b' TextSize.ExtraLarge),
    justify_content := Justify.Left }

/-- A full 48-column centered line (hard-wraps on the next character). -/
def centerFull : Line :=
  { chars := List.replicate 48 (mkStyled 'a' TextSize.Medium),
    justify_content := Justify.Center }

/-- The remainder produced by hard-wrapping `centerFull` with one more char. -/
def centerRem : Line :=
  { chars := [mkStyled 'b' TextSize.Medium], justify_content := Justify.Center }

/-- A CJK character, not representable in CP437. -/
def badChar : Char := Char.ofNat 0x4E2D

/-- A styled CJK character. -/
def badStyled : StyledChar := mkStyled badChar TextSize.Medium

/-- The builder obtained by adding `badChar` to a fresh builder. -/
def badBuilder : PrintBuilder :=
  { PrintBuilder.new false with
      lines := [{ chars := [badStyled], justify_content := Justify.Left }] }

/-- A builder holding seven empty lines. -/
def builder7 : PrintBuilder :=
  { PrintBuilder.new false with
      lines := List.replicate 7 { chars := [], justify_content := Justify.Left } }

/-- The command sequence `print_to` emits for `builder7` at three rows per
page: two full pages of three feeds and a cut, then one line, two padding
feeds and a final cut. -/
def cmds7 : List Command :=
  [Command.justify Justify.Left, Command.feed,
   Command.justify Justify.Left, Command.feed,
   Command.justify Justify.Left, Command.feed, Command.printCut,
   Command.justify Justify.Left, Command.feed,
   Command.justify Justify.Left, Command.feed,
   Command.justify Justify.Left, Command.feed, Command.printCut,
   Command.justify Justify.Left, Command.feed,
   Command.feed, Command.feed, Command.printCut]

/-- A builder holding two one-character lines. -/
def builder2 : PrintBuilder :=
  { PrintBuilder.new false with
      lines := List.replicate 2
        { chars := [mkStyled 'a' TextSize.Medium], justify_content := Justify.Left } }

/-- The command sequence `print_to` emits for `builder2` at zero rows per
page: a cut directly after every single line's feed. -/
def cmds2 : List Command :=
  [Command.justify Justify.Left, Command.resetSize, Command.bold false,
   Command.underline false, Command.underline false, Command.write 'a',
   Command.feed, Command.printCut,
   Command.justify Justify.Left, Command.resetSize, Command.bold false,
   Command.underline false, Command.underline false, Command.write 'a',
   Command.feed, Command.printCut]

/-! ### Basic lemmas -/

lemma widthOf_append (a b : List StyledChar) :
    widthOf (a ++ b) = widthOf a + widthOf b := by
  simp [widthOf]

lemma normalize_char_values {c d : Char} (h : normalize_char c = some d) :
    d = Char.ofNat 0x27 ∨ d = Char.ofNat 0x22 ∨ d = Char.ofNat 0x2D := by
  unfold normalize_char at h
  split at h
  · exact Or.inl (Option.some.inj h).symm
  · split at h
    · exact Or.inr (Or.inl (Option.some.inj h).symm)
    · split at h
      · exact Or.inr (Or.inr (Option.some.inj h).symm)
      · exact absurd h (by simp)

/-! ### C8: normalization is idempotent -/

/-- C8: for every char `c`, `normalize (normalize c) = normalize c`, where
`normalize c` is `normalize_char c` when it returns a mapped character and `c`
itself otherwise. -/
theorem C8_normalize_idempotent (c : Char) :
    normalize (normalize c) = normalize c := by
  unfold normalize
  cases h : normalize_char c with
  | none => simp [h]
  | some d =>
    simp only [Option.getD_some]
    rcases normalize_char_values h with rfl | rfl | rfl <;> decide

/-! ### C7: the normalization table -/

/-- C7 counterexample: the horizontal ellipsis is NOT mapped by
`normalize_char` (the claim says it is mapped to its closest ASCII
equivalent); it passes through unchanged and then fails CP437 validation. -/
theorem C7_counterexample :
    normalize_char (Char.ofNat 0x2026) = none ∧
    normalize (Char.ofNat 0x2026) = Char.ofNat 0x2026 ∧
    is_cp437_char (Char.ofNat 0x2026) = false := by
  decide

/-- C7 amended: normalization maps the curly single quotes (including the
modifier-letter apostrophe), curly double quotes, en-dash and em-dash to their
ASCII equivalents, and maps every character outside that table — including the
horizontal ellipsis — to itself. -/
theorem C7_normalization_table (c : Char) :
    normalize (Char.ofNat 0x2018) = Char.ofNat 0x27 ∧
    normalize (Char.ofNat 0x2019) = Char.ofNat 0x27 ∧
    normalize (Char.ofNat 0x02BC) = Char.ofNat 0x27 ∧
    normalize (Char.ofNat 0x201C) = Char.ofNat 0x22 ∧
    normalize (Char.ofNat 0x201D) = Char.ofNat 0x22 ∧
    normalize (Char.ofNat 0x2013) = Char.ofNat 0x2D ∧
    normalize (Char.ofNat 0x2014) = Char.ofNat 0x2D ∧
    (c.toNat ∉ mappedCodepoints → normalize c = c) := by
  refine ⟨by decide, by decide, by decide, by decide, by decide, by decide, by decide, ?_⟩
  intro hn
  have h1 : c ≠ Char.ofNat 0x2018 := fun heq => hn (by rw [heq]; decide)
  have h2 : c ≠ Char.ofNat 0x2019 := fun heq => hn (by rw [heq]; decide)
  have h3 : c ≠ Char.ofNat 0x02BC := fun heq => hn (by rw [heq]; decide)
  have h4 : c ≠ Char.ofNat 0x201C := fun heq => hn (by rw [heq]; decide)
  have h5 : c ≠ Char.ofNat 0x201D := fun heq => hn (by rw [heq]; decide)
  have h6 : c ≠ Char.ofNat 0x2013 := fun heq => hn (by rw [heq]; decide)
  have h7 : c ≠ Char.ofNat 0x2014 := fun heq => hn (by rw [heq]; decide)
  simp [normalize, normalize_char, h1, h2, h3, h4, h5, h6, h7]

/-- C7 witness: the amended theorem applied at the horizontal ellipsis, whose
code point is outside the normalization table, shows it passes through. -/
theorem C7_witness :
    normalize (Char.ofNat 0x2026) = Char.ofNat 0x2026 :=
  (C7_normalization_table (Char.ofNat 0x2026)).2.2.2.2.2.2.2 (by decide)

/-! ### C4: CP437 validation -/

/-- C4 counterexample: the ASCII control character `0x01` is neither in the
ASCII printable/whitespace range nor in the 128-entry extended table, yet
`cp437_char_only` accepts it — the source accepts ALL ASCII code points. -/
theorem C4_counterexample :
    (cp437_char_only (Char.ofNat 0x01)).toOption = some (Char.ofNat 0x01) ∧
    spec_ascii_printable_or_whitespace (Char.ofNat 0x01) = false ∧
    (Char.ofNat 0x01) ∉ EXTENDED_CP437 := by
  decide

/-- C4 amended: `cp437_char_only c` succeeds (returning `c`) if and only if
`c` is ASCII — any code point up to `0x7F`, control characters included — or
one of the (non-ASCII) entries of the 128-entry CP437 table. -/
theorem C4_cp437_validation (c : Char) :
    (cp437_char_only c).toOption = some c ↔
      (rust_is_ascii c = true ∨ c ∈ EXTENDED_CP437) := by
  unfold cp437_char_only is_cp437_char
  by_cases ha : rust_is_ascii c = true
  · simp [ha, Except.toOption]
  · simp only [ha, Bool.false_eq_true, if_false, false_or]
    by_cases hm : c ∈ EXTENDED_CP437
    · simp [hm, Except.toOption]
    · simp [hm, Except.toOption]

/-! ### C2: where validation happens -/

/-- C2 counterexample: `add_content` with a non-CP437 character returns `Ok`
and the character is appended to the builder — it does not return an
`UnsupportedCharacter` error as the claim states. -/
theorem C2_counterexample :
    PrintBuilder.add_content (PrintBuilder.new false) [badChar] =
        Except.ok badBuilder ∧
    is_cp437_char badChar = false ∧
    badBuilder.lines.map (fun l => l.chars.map (fun sc => sc.ch)) = [[badChar]] := by
  decide

/-- C2 amended: `add_content` and `add_char_content` always return `Ok` and
append the characters unconditionally; CP437 validation is deferred to
emission — `StyledChar::to_print_command` fails at any character that is not
device-representable after normalization, so the error surfaces on `print_to`
while the characters stay in the builder. -/
theorem C2_validation_deferred :
    (∀ (b : PrintBuilder) (content : List Char),
        isOkE (b.add_content content) = true) ∧
    (∀ (b : PrintBuilder) (sc : StyledChar),
        isOkE (b.add_char_content sc) = true) ∧
    (∀ sc : StyledChar, is_cp437_char (normalize sc.ch) = false →
        sc.to_print_command = Except.error cp437ErrorMsg) := by
  refine ⟨fun b content => rfl, fun b sc => rfl, ?_⟩
  intro sc h
  unfold normalize at h
  simp [StyledChar.to_print_command, cp437_char_only, h]

/-- C2 witness: the deferred-validation theorem applied at a concrete CJK
styled character. -/
theorem C2_witness :
    StyledChar.to_print_command badStyled = Except.error cp437ErrorMsg :=
  C2_validation_deferred.2.2 badStyled (by decide)

/-! ### Soundness of the wrap-point scan -/

lemma findWP_sound :
    ∀ (cs pre : List StyledChar) (last : Option Nat),
      (∀ j, last = some j → wsOK (pre ++ cs) j) →
      ∀ j, findWP cs pre.length (widthOf pre) last = some j → wsOK (pre ++ cs) j := by
  intro cs
  induction cs with
  | nil =>
    intro pre last hl j hj
    exact hl j hj
  | cons sc rest ih =>
    intro pre last hl j hj
    simp only [findWP] at hj
    have hl' : ∀ j, (if rust_is_whitespace sc.ch = true ∧ widthOf pre ≤ CPL
        then some pre.length else last) = some j → wsOK (pre ++ sc :: rest) j := by
      intro j hj'
      by_cases hc : rust_is_whitespace sc.ch = true ∧ widthOf pre ≤ CPL
      · rw [if_pos hc] at hj'
        have hjj : j = pre.length := (Option.some.inj hj').symm
        subst hjj
        refine ⟨by simp, ?_, ?_⟩
        · have ht : (pre ++ sc :: rest).take pre.length = pre := by
            rw [List.take_append_of_le_length (Nat.le_refl _), List.take_length]
          rw [ht]; exact hc.2
        · have hg : (pre ++ sc :: rest).getD pre.length default = sc := by
            rw [List.getD_append_right pre (sc :: rest) default pre.length (Nat.le_refl _),
              Nat.sub_self]
            rfl
          rw [hg]; exact hc.1
      · rw [if_neg hc] at hj'
        exact hl j hj'
    by_cases hw : CPL < widthOf pre + sc.state.text_size.char_width
    · rw [if_pos hw] at hj
      exact hl' j hj
    · rw [if_neg hw] at hj
      have h1 : widthOf (pre ++ [sc]) = widthOf pre + sc.state.text_size.char_width := by
        simp [widthOf_append, widthOf]
      have h2 : (pre ++ [sc]).length = pre.length + 1 := by simp
      have := ih (pre ++ [sc])
        (if rust_is_whitespace sc.ch = true ∧ widthOf pre ≤ CPL
          then some pre.length else last)
        (by simpa [List.append_assoc] using hl') j (by rw [h2, h1]; exact hj)
      simpa [List.append_assoc] using this

lemma find_wrap_point_sound (l : Line) (j : Nat)
    (h : l.find_wrap_point = some j) : wsOK l.chars j := by
  unfold Line.find_wrap_point at h
  split at h
  · exact absurd h (by simp)
  · have h0 : findWP l.chars ([] : List StyledChar).length (widthOf []) none = some j := by
      simpa [widthOf] using h
    simpa using findWP_sound l.chars [] none (fun j hj => by simp at hj) j h0

/-! ### C1: the post-wrap width invariant -/

/-- C1 counterexample: `wideLine` has visual width 48 ≤ CPL, yet appending one
more ExtraLarge character soft-wraps at the leading whitespace and returns a
remainder line of visual width 50 > CPL. -/
theorem C1_counterexample :
    wideLine.visual_width ≤ CPL ∧
    ((wideLine.add_char (mkStyled 'b' TextSize.ExtraLarge)).2.map Line.visual_width)
      = some 50 ∧
    ¬ (50 ≤ CPL) := by
  decide

/-- C1 amended: after `add_char` returns, the mutated line always has
`visual_width ≤ CPL`, for every mix of TextSize values; the returned remainder
line, however, is not bounded by CPL (it may exceed it when the soft-wrap
point lies early in the line). -/
theorem C1_mutated_line_within_budget (l : Line) (sc : StyledChar)
    (h : l.visual_width ≤ CPL) :
    ((l.add_char sc).1).visual_width ≤ CPL := by
  unfold Line.add_char
  by_cases h1 : widthOf (l.chars ++ [sc]) ≤ CPL
  · simp [Line.visual_width, h1]
  · simp only [if_neg h1]
    cases hfw : Line.find_wrap_point
        { chars := l.chars ++ [sc], justify_content := l.justify_content } with
    | some wp =>
      have hws := find_wrap_point_sound _ wp hfw
      simpa [Line.visual_width, hfw] using hws.2.1
    | none =>
      have hlen : (l.chars ++ [sc]).length - 1 = l.chars.length := by simp
      have htake : (l.chars ++ [sc]).take ((l.chars ++ [sc]).length - 1) = l.chars := by
        rw [hlen, List.take_append_of_le_length (Nat.le_refl _), List.take_length]
      simpa [Line.visual_width, hfw, htake] using h

/-- C1 witness: the amended theorem applied at an empty line and a single
Medium character. -/
theorem C1_witness :
    Line.visual_width
      ((Line.add_char { chars := [], justify_content := Justify.Left }
        (mkStyled 'a' TextSize.Medium)).1) ≤ CPL :=
  C1_mutated_line_within_budget
    { chars := [], justify_content := Justify.Left }
    (mkStyled 'a' TextSize.Medium) (by decide)

/-! ### C9: justification propagation -/

/-- C9: every remainder line returned by `add_char` carries the justification
of the line it was split from, and every line created by `new_line` carries
the justification of the builder's last line, or `Left` when the builder has
no lines. -/
theorem C9_justification_propagates :
    (∀ (l : Line) (sc : StyledChar) (l' : Line),
        (l.add_char sc).2 = some l' → l'.justify_content = l.justify_content) ∧
    (∀ b : PrintBuilder,
        (b.new_line).lines.getLast? =
          some { chars := [],
                 justify_content :=
                   (b.lines.getLast?).elim Justify.Left Line.justify_content }) := by
  constructor
  · intro l sc l' h
    unfold Line.add_char at h
    by_cases h1 : widthOf (l.chars ++ [sc]) ≤ CPL
    · simp [h1] at h
    · simp only [if_neg h1] at h
      cases hfw : Line.find_wrap_point
          { chars := l.chars ++ [sc], justify_content := l.justify_content } with
      | some wp =>
        simp only [hfw] at h
        rcases ite_eq_iff.mp h with ⟨_, hn⟩ | ⟨_, hs⟩
        · exact absurd hn (by simp)
        · exact (congrArg Line.justify_content (Option.some.inj hs)).symm
      | none =>
        simp only [hfw] at h
        rcases ite_eq_iff.mp h with ⟨_, hn⟩ | ⟨_, hs⟩
        · exact absurd hn (by simp)
        · exact (congrArg Line.justify_content (Option.some.inj hs)).symm
  · intro b
    unfold PrintBuilder.new_line PrintBuilder.current_line_justify_content
    rw [List.getLast?_concat]
    cases b.lines.getLast? <;> rfl

/-- C9 witness: hard-wrapping a full centered line yields a centered remainder. -/
theorem C9_witness :
    (centerFull.add_char (mkStyled 'b' TextSize.Medium)).2 = some centerRem ∧
    centerRem.justify_content = centerFull.justify_content :=
  ⟨by decide,
   C9_justification_propagates.1 centerFull (mkStyled 'b' TextSize.Medium)
     centerRem (by decide)⟩

/-! ### C3: character preservation across wrapping -/

lemma optLineChars_mk (rem : List StyledChar) (j : Justify) :
    optLineChars (if rem.isEmpty then none
      else some { chars := rem, justify_content := j }) = rem := by
  cases hrem : rem.isEmpty
  · simp [hrem, optLineChars]
  · have : rem = [] := by simpa using hrem
    simp [hrem, optLineChars, this]

/-- C3: the characters of the mutated line concatenated with those of the
returned remainder (if any) equal the previous characters followed by the
appended one, except that a soft wrap removes exactly the one whitespace
character at the wrap point; a hard wrap (and the no-wrap case) removes
nothing. -/
theorem C3_chars_preserved (l : Line) (sc : StyledChar) :
    ((l.add_char sc).1.chars ++ optLineChars (l.add_char sc).2 = l.chars ++ [sc]) ∨
    (∃ wp, wp < (l.chars ++ [sc]).length ∧
      rust_is_whitespace (((l.chars ++ [sc]).getD wp default).ch) = true ∧
      (l.add_char sc).1.chars ++ optLineChars (l.add_char sc).2 =
        (l.chars ++ [sc]).take wp ++ (l.chars ++ [sc]).drop (wp + 1)) := by
  unfold Line.add_char
  by_cases h1 : widthOf (l.chars ++ [sc]) ≤ CPL
  · left
    simp [h1, optLineChars]
  · simp only [if_neg h1]
    cases hfw : Line.find_wrap_point
        { chars := l.chars ++ [sc], justify_content := l.justify_content } with
    | some wp =>
      right
      obtain ⟨hlt, hwle, hws⟩ := find_wrap_point_sound _ wp hfw
      refine ⟨wp, hlt, hws, ?_⟩
      simp only [hfw]
      rw [optLineChars_mk]
      have hne : ((l.chars ++ [sc]).drop wp).isEmpty = false := by
        rw [List.isEmpty_eq_false_iff_exists_mem]
        have : wp < (l.chars ++ [sc]).length := hlt
        rcases List.exists_mem_of_length_pos (l := (l.chars ++ [sc]).drop wp)
          (by simpa [List.length_drop] using Nat.sub_pos_of_lt this) with ⟨x, hx⟩
        exact ⟨x, hx⟩
      rw [if_neg (by simp [hne]), List.tail_drop]
    | none =>
      left
      simp only [hfw]
      rw [optLineChars_mk]
      exact List.take_append_drop _ _

/-! ### C5: hard-wrapping whitespace-free uniform runs -/

lemma char_width_pos (s : TextSize) : 0 < s.char_width := by
  cases s <;> decide

lemma char_width_le_CPL (s : TextSize) : s.char_width ≤ CPL := by
  cases s <;> decide

lemma widthOf_uniform (s : TextSize) (cs : List StyledChar)
    (h : ∀ x ∈ cs, x.state.text_size = s) :
    widthOf cs = cs.length * s.char_width := by
  induction cs with
  | nil => simp [widthOf]
  | cons x rest ih =>
    have hx := h x (by simp)
    have hr := ih (fun y hy => h y (by simp [hy]))
    simp only [widthOf, List.map_cons, List.sum_cons, List.length_cons] at hr ⊢
    rw [hx, hr]
    ring

lemma findWP_none_of_no_ws :
    ∀ (cs : List StyledChar) (i width : Nat),
      (∀ x ∈ cs, rust_is_whitespace x.ch = false) →
      findWP cs i width none = none := by
  intro cs
  induction cs with
  | nil => intro i width _; rfl
  | cons x rest ih =>
    intro i width h
    have hx : rust_is_whitespace x.ch = false := h x (by simp)
    simp only [findWP, hx]
    split
    · simp
    · simpa using ih (i + 1) (width + x.state.text_size.char_width)
        (fun y hy => h y (by simp [hy]))

lemma addContentLoop_inv (st : FormatState) :
    ∀ (content : List Char) (acc : List Line) (cur : Line),
      (∀ ch ∈ content, rust_is_whitespace ch = false) →
      (∀ l ∈ acc, l.chars.length = CPL / st.text_size.char_width) →
      (∀ x ∈ cur.chars, x.state.text_size = st.text_size ∧
          rust_is_whitespace x.ch = false) →
      cur.chars.length ≤ CPL / st.text_size.char_width →
      (∀ l ∈ (addContentLoop st content acc cur).1,
          l.chars.length = CPL / st.text_size.char_width) ∧
      (∀ x ∈ (addContentLoop st content acc cur).2.chars,
          x.state.text_size = st.text_size ∧ rust_is_whitespace x.ch = false) ∧
      (addContentLoop st content acc cur).2.chars.length
        ≤ CPL / st.text_size.char_width := by
  intro content
  induction content with
  | nil =>
    intro acc cur _ h2 h3 h4
    exact ⟨h2, h3, h4⟩
  | cons ch rest ih =>
    intro acc cur hcont hacc hcur hlen
    have hch : rust_is_whitespace ch = false := hcont ch (by simp)
    have hrest : ∀ c ∈ rest, rust_is_whitespace c = false :=
      fun c hc => hcont c (by simp [hc])
    have hall : ∀ x ∈ cur.chars ++ [{ ch := ch, state := st }],
        x.state.text_size = st.text_size := by
      intro x hx
      rcases List.mem_append.mp hx with hx | hx
      · exact (hcur x hx).1
      · simp at hx
        subst hx
        rfl
    have hallws : ∀ x ∈ cur.chars ++ [{ ch := ch, state := st }],
        rust_is_whitespace x.ch = false := by
      intro x hx
      rcases List.mem_append.mp hx with hx | hx
      · exact (hcur x hx).2
      · simp at hx
        subst hx
        exact hch
    have hwidth : widthOf (cur.chars ++ [{ ch := ch, state := st }])
        = (cur.chars.length + 1) * st.text_size.char_width := by
      rw [widthOf_uniform st.text_size _ hall]
      simp
    by_cases hfits : cur.chars.length + 1 ≤ CPL / st.text_size.char_width
    · have hle : widthOf (cur.chars ++ [{ ch := ch, state := st }]) ≤ CPL := by
        rw [hwidth]
        exact (Nat.le_div_iff_mul_le (char_width_pos st.text_size)).mp hfits
      simp only [addContentLoop, Line.add_char, if_pos hle]
      exact ih acc
        { chars := cur.chars ++ [{ ch := ch, state := st }],
          justify_content := cur.justify_content }
        hrest hacc (fun x hx => ⟨hall x hx, hallws x hx⟩) (by simpa using hfits)
    · have hq : cur.chars.length = CPL / st.text_size.char_width := by omega
      have hgt : ¬ widthOf (cur.chars ++ [{ ch := ch, state := st }]) ≤ CPL := by
        rw [hwidth]
        intro hle
        exact hfits ((Nat.le_div_iff_mul_le (char_width_pos st.text_size)).mpr hle)
      have hfw : Line.find_wrap_point
          { chars := cur.chars ++ [{ ch := ch, state := st }],
            justify_content := cur.justify_content } = none := by
        unfold Line.find_wrap_point
        rw [if_neg (by simpa [Line.visual_width] using hgt)]
        exact findWP_none_of_no_ws _ 0 0 hallws
      have hlen1 : (cur.chars ++ [({ ch := ch, state := st } : StyledChar)]).length - 1
          = cur.chars.length := by simp
      have htake : List.take
            ((cur.chars ++ [({ ch := ch, state := st } : StyledChar)]).length - 1)
            (cur.chars ++ [({ ch := ch, state := st } : StyledChar)]) = cur.chars := by
        rw [hlen1, List.take_append_of_le_length (Nat.le_refl _), List.take_length]
      have hdrop : List.drop
            ((cur.chars ++ [({ ch := ch, state := st } : StyledChar)]).length - 1)
            (cur.chars ++ [({ ch := ch, state := st } : StyledChar)])
          = [({ ch := ch, state := st } : StyledChar)] := by
        rw [hlen1]
        exact List.drop_left cur.chars _
      simp only [addContentLoop, Line.add_char, if_neg hgt, hfw, htake, hdrop,
        List.isEmpty_cons, Bool.false_eq_true, if_false]
      exact ih (acc ++ [{ chars := cur.chars, justify_content := cur.justify_content }])
        { chars := [{ ch := ch, state := st }], justify_content := cur.justify_content }
        hrest
        (by
          intro l hl
          rcases List.mem_append.mp hl with hl | hl
          · exact hacc l hl
          · simp at hl
            subst hl
            exact hq)
        (by
          intro x hx
          simp at hx
          subst hx
          exact ⟨rfl, hch⟩)
        (by
          simp only [List.length_singleton]
          exact (Nat.le_div_iff_mul_le (char_width_pos st.text_size)).mpr
            (by simpa using char_width_le_CPL st.text_size))

/-- C5: feeding a whitespace-free uniform-size text through `add_content`
hard-wraps so that every resulting line except possibly the last has exactly
`CPL / char_width` characters; in particular 50 Medium 'a' characters produce
lines of 48 then 2 characters, and 25 ExtraLarge characters wrap after the
16th character. -/
theorem C5_hard_wrap (s : TextSize) (content : List Char)
    (hws : ∀ ch ∈ content, rust_is_whitespace ch = false)
    (_hover : CPL < content.length * s.char_width) :
    (∀ b', PrintBuilder.add_content
        { PrintBuilder.new false with current_text_size := s } content
          = Except.ok b' →
      ∀ l ∈ b'.lines.dropLast, l.chars.length = CPL / s.char_width) ∧
    ((PrintBuilder.add_content (PrintBuilder.new false)
        (List.replicate 50 'a')).toOption.map
        (fun b => b.lines.map (fun l => l.chars.length)) = some [48, 2]) ∧
    ((PrintBuilder.add_content
        { PrintBuilder.new false with current_text_size := TextSize.ExtraLarge }
        (List.replicate 25 'a')).toOption.map
        (fun b => b.lines.map (fun l => l.chars.length)) = some [16, 9]) := by
  refine ⟨?_, by decide, by decide⟩
  intro b' hok l hl
  unfold PrintBuilder.add_content at hok
  simp only [PrintBuilder.new, List.getLast?_nil, List.dropLast_nil] at hok
  have hb' := (Except.ok.inj hok).symm
  subst hb'
  simp only [List.dropLast_concat] at hl
  have := addContentLoop_inv
    { text_size := s,
      text_decoration := { bold := false, underline := false, italic := false } }
    content [] { chars := [], justify_content := Justify.Left }
    hws (by simp) (by simp) (by simp)
  exact this.1 l hl

/-- C5 witness: the theorem applied at 50 whitespace-free Medium characters. -/
theorem C5_witness :
    (PrintBuilder.add_content (PrintBuilder.new false)
        (List.replicate 50 'a')).toOption.map
        (fun b => b.lines.map (fun l => l.chars.length)) = some [48, 2] :=
  (C5_hard_wrap TextSize.Medium (List.replicate 50 'a')
    (by decide) (by decide)).2.1

/-! ### Commands emitted for a single line never contain feed, cut or print -/

lemma countCmd_append (c : Command) (a b : List Command) :
    countCmd c (a ++ b) = countCmd c a + countCmd c b := by
  induction a with
  | nil => simp [countCmd]
  | cons d rest ih => simp [countCmd, ih]; omega

lemma countCmd_eq_zero {c : Command} {cs : List Command}
    (h : ∀ d ∈ cs, d ≠ c) : countCmd c cs = 0 := by
  induction cs with
  | nil => rfl
  | cons d rest ih =>
    have hd : d ≠ c := h d (by simp)
    simp only [countCmd, if_neg hd, Nat.zero_add]
    exact ih (fun e he => h e (by simp [he]))

lemma countCmd_replicate (c : Command) (m : Nat) :
    countCmd c (List.replicate m c) = m := by
  induction m with
  | zero => rfl
  | succ k ih =>
    simp [List.replicate, countCmd, ih]
    omega

lemma countCmd_replicate_ne {c d : Command} (h : d ≠ c) (m : Nat) :
    countCmd c (List.replicate m d) = 0 :=
  countCmd_eq_zero (fun e he => by
    rw [List.eq_of_mem_replicate he]
    exact h)

lemma charCmds_benign {sc : StyledChar} {cs : List Command}
    (h : sc.to_print_command = Except.ok cs) :
    ∀ d ∈ cs, d ≠ Command.feed ∧ d ≠ Command.printCut ∧ d ≠ Command.print := by
  simp only [StyledChar.to_print_command] at h
  cases hv : cp437_char_only ((normalize_char sc.ch).getD sc.ch) with
  | error e => rw [hv] at h; exact absurd h (by simp)
  | ok a =>
    rw [hv] at h
    have hcs := (Except.ok.inj h).symm
    subst hcs
    intro d hd
    cases hts : sc.state.text_size <;>
      simp [TextSize.to_print_command, hts, TextDecoration.to_print_command] at hd <;>
      rcases hd with rfl | rfl | rfl | rfl | rfl <;>
      exact ⟨by simp, by simp, by simp⟩

lemma lineCharCommands_benign :
    ∀ (cs : List StyledChar) (out : List Command),
      lineCharCommands cs = Except.ok out →
      ∀ d ∈ out, d ≠ Command.feed ∧ d ≠ Command.printCut ∧ d ≠ Command.print := by
  intro cs
  induction cs with
  | nil =>
    intro out h d hd
    have : out = [] := (Except.ok.inj h).symm
    subst this
    exact absurd hd (by simp)
  | cons sc rest ih =>
    intro out h d hd
    simp only [lineCharCommands] at h
    cases hc : sc.to_print_command with
    | error e => rw [hc] at h; exact absurd h (by simp)
    | ok c =>
      rw [hc] at h
      cases hr : lineCharCommands rest with
      | error e => rw [hr] at h; exact absurd h (by simp)
      | ok cs2 =>
        rw [hr] at h
        have hout := (Except.ok.inj h).symm
        subst hout
        rcases List.mem_append.mp hd with hd | hd
        · exact charCmds_benign hc d hd
        · exact ih cs2 hr d hd

lemma emit_benign {l : Line} {cs : List Command} (h : l.emit = Except.ok cs) :
    ∀ d ∈ cs, d ≠ Command.feed ∧ d ≠ Command.printCut ∧ d ≠ Command.print := by
  unfold Line.emit at h
  cases hc : lineCharCommands l.chars with
  | error e => rw [hc] at h; exact absurd h (by simp)
  | ok cs0 =>
    rw [hc] at h
    have hcs := (Except.ok.inj h).symm
    subst hcs
    intro d hd
    rcases List.mem_append.mp hd with hd | hd
    · cases l.justify_content <;> simp [Justify.to_print_command] at hd <;>
        (subst hd; exact ⟨by simp, by simp, by simp⟩)
    · exact lineCharCommands_benign l.chars cs0 hc d hd

/-! ### Counting cuts in the paginated emission -/

lemma emitPaginated_cutCount {n : Nat} (hn : 1 ≤ n) :
    ∀ (lines : List Line) (count : Nat) (cmds : List Command), count < n →
      emitPaginated n lines count = Except.ok cmds →
      countCmd Command.printCut cmds =
        (count + lines.length) / n +
          (if (count + lines.length) % n = 0 then 0 else 1) := by
  intro lines
  induction lines with
  | nil =>
    intro count cmds hc hok
    simp only [emitPaginated] at hok
    simp only [List.length_nil, Nat.add_zero]
    by_cases h0 : 0 < count
    · rw [if_pos h0] at hok
      have hcmds := (Except.ok.inj hok).symm
      subst hcmds
      rw [countCmd_append, countCmd_replicate_ne (by simp) _,
        (by decide : countCmd Command.printCut [Command.printCut] = 1),
        Nat.div_eq_of_lt (by omega)]
      have hmm : count % n = count := Nat.mod_eq_of_lt (by omega)
      split <;> omega
    · rw [if_neg h0] at hok
      have hcmds := (Except.ok.inj hok).symm
      subst hcmds
      have hc0 : count = 0 := by omega
      subst hc0
      simp [countCmd]
  | cons l rest ih =>
    intro count cmds hc hok
    simp only [emitPaginated] at hok
    cases hemit : l.emit with
    | error e => simp only [hemit] at hok; exact absurd hok (by simp)
    | ok block =>
      simp only [hemit] at hok
      have hb0 : countCmd Command.printCut block = 0 :=
        countCmd_eq_zero (fun d hd => (emit_benign hemit d hd).2.1)
      by_cases hcut : n ≤ count + 1
      · rw [if_pos hcut] at hok
        cases hrest : emitPaginated n rest 0 with
        | error e => simp only [hrest] at hok; exact absurd hok (by simp)
        | ok restCmds =>
          simp only [hrest] at hok
          have hcmds := (Except.ok.inj hok).symm
          subst hcmds
          have hrc := ih 0 restCmds (by omega) hrest
          rw [countCmd_append, countCmd_append, hb0, hrc,
            (by decide : countCmd Command.printCut [Command.feed, Command.printCut] = 1)]
          have hcn : count + (rest.length + 1) = rest.length + n := by omega
          rw [List.length_cons, hcn, Nat.add_div_right _ (by omega),
            Nat.add_mod_right]
          simp only [Nat.zero_add]
          split <;> omega
      · rw [if_neg hcut] at hok
        cases hrest : emitPaginated n rest (count + 1) with
        | error e => simp only [hrest] at hok; exact absurd hok (by simp)
        | ok restCmds =>
          simp only [hrest] at hok
          have hcmds := (Except.ok.inj hok).symm
          subst hcmds
          have hrc := ih (count + 1) restCmds (by omega) hrest
          rw [countCmd_append, countCmd_append, hb0, hrc,
            (by decide : countCmd Command.printCut [Command.feed] = 0)]
          have hcn : count + 1 + rest.length = count + (rest.length + 1) := by omega
          rw [List.length_cons, hcn]
          omega

/-! ### The final page of the paginated emission -/

lemma emitPaginated_lastPage {n : Nat} (hn : 1 ≤ n) :
    ∀ (lines : List Line) (count : Nat) (cmds : List Command), count < n →
      emitPaginated n lines count = Except.ok cmds → 0 < count + lines.length →
      ∃ pre page, cmds = pre ++ page ++ [Command.printCut] ∧
        countCmd Command.printCut page = 0 ∧
        ((pre = [] ∧ countCmd Command.feed page = n - count) ∨
         (∃ pre2, pre = pre2 ++ [Command.printCut] ∧
            countCmd Command.feed page = n)) := by
  intro lines
  induction lines with
  | nil =>
    intro count cmds hc hok hpos
    simp only [emitPaginated] at hok
    have h0 : 0 < count := by simpa using hpos
    rw [if_pos h0] at hok
    have hcmds := (Except.ok.inj hok).symm
    subst hcmds
    refine ⟨[], List.replicate (n - count) Command.feed, by simp, ?_, Or.inl ⟨rfl, ?_⟩⟩
    · exact countCmd_replicate_ne (by simp) _
    · exact countCmd_replicate Command.feed _
  | cons l rest ih =>
    intro count cmds hc hok hpos
    simp only [emitPaginated] at hok
    cases hemit : l.emit with
    | error e => simp only [hemit] at hok; exact absurd hok (by simp)
    | ok block =>
      simp only [hemit] at hok
      have hbc : countCmd Command.printCut block = 0 :=
        countCmd_eq_zero (fun d hd => (emit_benign hemit d hd).2.1)
      have hbf : countCmd Command.feed block = 0 :=
        countCmd_eq_zero (fun d hd => (emit_benign hemit d hd).1)
      by_cases hcut : n ≤ count + 1
      · rw [if_pos hcut] at hok
        cases hrest : emitPaginated n rest 0 with
        | error e => simp only [hrest] at hok; exact absurd hok (by simp)
        | ok restCmds =>
          simp only [hrest] at hok
          have hcmds := (Except.ok.inj hok).symm
          subst hcmds
          by_cases hrl : 0 < rest.length
          · obtain ⟨pre1, page1, hsplit, hc1, hd1⟩ :=
              ih 0 restCmds (by omega) hrest (by omega)
            refine ⟨block ++ [Command.feed, Command.printCut] ++ pre1, page1,
              by rw [hsplit]; simp, hc1, Or.inr ?_⟩
            rcases hd1 with ⟨hpre1, hfeed1⟩ | ⟨pre2, hpre1, hfeed1⟩
            · subst hpre1
              exact ⟨block ++ [Command.feed], by simp, by rw [hfeed1]; omega⟩
            · subst hpre1
              exact ⟨block ++ [Command.feed, Command.printCut] ++ pre2, by simp,
                hfeed1⟩
          · have hrest0 : rest.length = 0 := by omega
            have hrnil : rest = [] := List.length_eq_zero.mp hrest0
            subst hrnil
            simp only [emitPaginated, if_neg (by omega : ¬ 0 < 0)] at hrest
            have hrc := (Except.ok.inj hrest).symm
            subst hrc
            refine ⟨[], block ++ [Command.feed], by simp, ?_, Or.inl ⟨rfl, ?_⟩⟩
            · rw [countCmd_append, hbc]
              simp [countCmd]
            · rw [countCmd_append, hbf]
              simp [countCmd]
              omega
      · rw [if_neg hcut] at hok
        cases hrest : emitPaginated n rest (count + 1) with
        | error e => simp only [hrest] at hok; exact absurd hok (by simp)
        | ok restCmds =>
          simp only [hrest] at hok
          have hcmds := (Except.ok.inj hok).symm
          subst hcmds
          obtain ⟨pre1, page1, hsplit, hc1, hd1⟩ :=
            ih (count + 1) restCmds (by omega) hrest (by omega)
          rcases hd1 with ⟨hpre1, hfeed1⟩ | ⟨pre2, hpre1, hfeed1⟩
          · subst hpre1
            refine ⟨[], block ++ [Command.feed] ++ page1,
              by rw [hsplit]; simp, ?_, Or.inl ⟨rfl, ?_⟩⟩
            · rw [countCmd_append, countCmd_append, hbc, hc1]
              simp [countCmd]
            · rw [countCmd_append, countCmd_append, hbf, hfeed1]
              simp [countCmd]
              omega
          · subst hpre1
            refine ⟨block ++ [Command.feed] ++ (pre2 ++ [Command.printCut]), page1,
              by rw [hsplit]; simp, hc1,
              Or.inr ⟨block ++ [Command.feed] ++ pre2, by simp, hfeed1⟩⟩

/-! ### C6: pagination arithmetic -/

/-- C6: a builder with `k*n + r` lines printed at `rows_per_page = n` issues
exactly `k + (1 if r > 0 else 0)` cut commands, and (when there is at least
one line) the final page — the MAXIMAL cut-free run of commands before the
last cut, pinned by requiring the prefix to be empty or to end in a cut —
contains exactly `n` feed commands. -/
theorem C6_pagination (b : PrintBuilder) (n k r : Nat) (cmds : List Command)
    (hn : 1 ≤ n) (hr : r < n) (hlen : b.lines.length = k * n + r)
    (hok : b.print_to (some n) = Except.ok cmds) :
    countCmd Command.printCut cmds = k + (if r = 0 then 0 else 1) ∧
    (0 < b.lines.length →
      ∃ pre page, cmds = pre ++ page ++ [Command.printCut] ∧
        countCmd Command.printCut page = 0 ∧
        countCmd Command.feed page = n ∧
        (pre = [] ∨ ∃ pre2, pre = pre2 ++ [Command.printCut])) := by
  have hok' : emitPaginated n b.lines 0 = Except.ok cmds := hok
  constructor
  · have hcc := emitPaginated_cutCount hn b.lines 0 cmds (by omega) hok'
    rw [hlen] at hcc
    have hdiv : (0 + (k * n + r)) / n = k := by
      rw [Nat.zero_add, Nat.add_comm (k * n) r,
        Nat.add_mul_div_right _ _ (by omega : 0 < n),
        Nat.div_eq_of_lt hr, Nat.zero_add]
    have hmod : (0 + (k * n + r)) % n = r := by
      rw [Nat.zero_add, Nat.mul_comm k n, Nat.mul_add_mod, Nat.mod_eq_of_lt hr]
    rw [hcc, hdiv, hmod]
  · intro hpos
    obtain ⟨pre, page, hsplit, hcf, hdisj⟩ :=
      emitPaginated_lastPage hn b.lines 0 cmds (by omega) hok' (by omega)
    rcases hdisj with ⟨hpre, hfeed⟩ | ⟨pre2, hpre, hfeed⟩
    · exact ⟨pre, page, hsplit, hcf, by simpa using hfeed, Or.inl hpre⟩
    · exact ⟨pre, page, hsplit, hcf, hfeed, Or.inr ⟨pre2, hpre⟩⟩

/-- C6 witness: seven empty lines at three rows per page give three cuts. -/
theorem C6_witness :
    countCmd Command.printCut cmds7 = 3 :=
  ((C6_pagination builder7 3 2 1 cmds7 (by decide) (by decide) (by decide)
    (by decide)).1).trans (by decide)

/-! ### C10: `rows_per_page = Some(0)` cuts after every line -/

lemma emitZero_struct :
    ∀ (lines : List Line) (cmds : List Command),
      emitPaginated 0 lines 0 = Except.ok cmds →
      ∃ blocks, lineEmits lines = Except.ok blocks ∧
        cmds = (blocks.map (fun bl => bl ++ [Command.feed, Command.printCut])).flatten ∧
        countCmd Command.print cmds = 0 ∧
        countCmd Command.printCut cmds = lines.length := by
  intro lines
  induction lines with
  | nil =>
    intro cmds hok
    simp only [emitPaginated, if_neg (by omega : ¬ 0 < 0)] at hok
    have hcmds := (Except.ok.inj hok).symm
    subst hcmds
    exact ⟨[], rfl, by simp, rfl, rfl⟩
  | cons l rest ih =>
    intro cmds hok
    simp only [emitPaginated, if_pos (by omega : 0 ≤ 0 + 1)] at hok
    cases hemit : l.emit with
    | error e => simp only [hemit] at hok; exact absurd hok (by simp)
    | ok block =>
      simp only [hemit] at hok
      cases hrest : emitPaginated 0 rest 0 with
      | error e => simp only [hrest] at hok; exact absurd hok (by simp)
      | ok restCmds =>
        simp only [hrest] at hok
        have hcmds := (Except.ok.inj hok).symm
        subst hcmds
        obtain ⟨blocks, hbl, hjoin, hp, hcnt⟩ := ih restCmds hrest
        refine ⟨block :: blocks, ?_, ?_, ?_, ?_⟩
        · simp only [lineEmits, hemit, hbl]
        · rw [hjoin]
          simp
        · rw [countCmd_append, countCmd_append, hp,
            countCmd_eq_zero (fun d hd => (emit_benign hemit d hd).2.2),
            (by decide : countCmd Command.print [Command.feed, Command.printCut] = 0)]
        · rw [countCmd_append, countCmd_append, hcnt,
            countCmd_eq_zero (fun d hd => (emit_benign hemit d hd).2.1),
            (by decide : countCmd Command.printCut [Command.feed, Command.printCut] = 1),
            List.length_cons]
          omega

/-- C10: with `rows_per_page = Some(0)` the emitted command sequence is the
per-line blocks each followed by a feed and an immediate cut — a cut after
every single line's feed, no padding feeds, and no final plain print,
regardless of the builder's cut flag. -/
theorem C10_zero_rows_cuts_every_line (b : PrintBuilder) (cmds : List Command)
    (hok : b.print_to (some 0) = Except.ok cmds) :
    ∃ blocks, lineEmits b.lines = Except.ok blocks ∧
      cmds = (blocks.map (fun bl => bl ++ [Command.feed, Command.printCut])).flatten ∧
      countCmd Command.print cmds = 0 ∧
      countCmd Command.printCut cmds = b.lines.length :=
  emitZero_struct b.lines cmds hok

/-- C10 witness: two one-character lines at zero rows per page. -/
theorem C10_witness :
    countCmd Command.printCut cmds2 = builder2.lines.length ∧
    countCmd Command.print cmds2 = 0 :=
  ⟨(C10_zero_rows_cuts_every_line builder2 cmds2 (by decide)).elim
      (fun _ h => h.2.2.2),
   (C10_zero_rows_cuts_every_line builder2 cmds2 (by decide)).elim
      (fun _ h => h.2.2.1)⟩

end Konan
